import Mathlib

/-!
Verification of the edit-history core of the OneText editor.

The `History` structure, its operations (`push`, `undo`, `redo`, `clear`,
`mark_saved`, `is_dirty`) and the `offset_to_position` mapping are shallow
embeddings of `src/editor/history.rs` and `src/editor/mod.rs`.  Document
text is modelled as a list of Unicode scalar values (`List Char`); byte
indices, where the source uses them (`char_indices`), are recovered through
`Char.utf8Size`.
-/

namespace OneText

/-- One recorded document state: full text plus selection offsets.
Mirrors `struct Snapshot` in `history.rs`. -/
structure Snapshot where
  text : List Char
  cursor_anchor : Nat
  cursor_head : Nat
deriving DecidableEq, Repr

/-- The undo/redo stack.  Mirrors `struct History` in `history.rs`. -/
structure History where
  stack : List Snapshot
  current_index : Nat
  saved_index : Nat
deriving DecidableEq, Repr

/-- `History::new()`: a single empty snapshot, both indices 0. -/
def History.new : History :=
  { stack := [{ text := [], cursor_anchor := 0, cursor_head := 0 }]
    current_index := 0
    saved_index := 0 }

/-- `History::clear(text)`: reset to a single snapshot holding `text`. -/
def History.clear (_h : History) (text : List Char) : History :=
  { stack := [{ text := text, cursor_anchor := 0, cursor_head := 0 }]
    current_index := 0
    saved_index := 0 }

/-- The fall-through branch of `History::push`: truncate any redo entries
(`self.stack.truncate(self.current_index + 1)` guarded by
`self.current_index < self.stack.len() - 1`), append the new snapshot and
advance `current_index`. -/
def History.pushNew (h : History) (text : List Char) (anchor hd : Nat) : History :=
  let stack1 :=
    if h.current_index < h.stack.length - 1 then
      h.stack.take (h.current_index + 1)
    else
      h.stack
  { h with
    stack := stack1 ++ [{ text := text, cursor_anchor := anchor, cursor_head := hd }]
    current_index := h.current_index + 1 }

/-- `History::push(text, anchor, head)`: if the snapshot at `current_index`
holds the same text, only its cursor fields are overwritten; otherwise the
redo branch is truncated and a new snapshot appended. -/
def History.push (h : History) (text : List Char) (anchor hd : Nat) : History :=
  match h.stack[h.current_index]? with
  | some top =>
    if top.text = text then
      { h with
        stack := h.stack.set h.current_index
          { top with cursor_anchor := anchor, cursor_head := hd } }
    else
      h.pushNew text anchor hd
  | none => h.pushNew text anchor hd

/-- `History::undo()`: decrement `current_index` if positive and return the
snapshot now at `current_index`; otherwise `None`.  The new state is
returned alongside the optional snapshot. -/
def History.undo (h : History) : Option Snapshot × History :=
  if 0 < h.current_index then
    let h2 := { h with current_index := h.current_index - 1 }
    (h2.stack[h2.current_index]?, h2)
  else
    (none, h)

/-- `History::redo()`: increment `current_index` if below the top and return
the snapshot now at `current_index`; otherwise `None`. -/
def History.redo (h : History) : Option Snapshot × History :=
  if h.current_index < h.stack.length - 1 then
    let h2 := { h with current_index := h.current_index + 1 }
    (h2.stack[h2.current_index]?, h2)
  else
    (none, h)

/-- `History::mark_saved()`. -/
def History.mark_saved (h : History) : History :=
  { h with saved_index := h.current_index }

/-- `History::is_dirty()`. -/
def History.is_dirty (h : History) : Bool :=
  h.current_index != h.saved_index

/-- States of a `History` reachable from `History::new()` by any sequence of
`push`, `undo`, `redo`, `clear` and `mark_saved` calls. -/
inductive Reachable : History → Prop where
  | new : Reachable History.new
  | push (text : List Char) (anchor hd : Nat) {h : History} :
      Reachable h → Reachable (h.push text anchor hd)
  | undo {h : History} : Reachable h → Reachable (h.undo).2
  | redo {h : History} : Reachable h → Reachable (h.redo).2
  | clear (text : List Char) {h : History} : Reachable h → Reachable (h.clear text)
  | mark_saved {h : History} : Reachable h → Reachable h.mark_saved

lemma undo_stack_eq (h : History) : (h.undo).2.stack = h.stack := by
  unfold History.undo; split <;> rfl

lemma undo_saved_eq (h : History) : (h.undo).2.saved_index = h.saved_index := by
  unfold History.undo; split <;> rfl

lemma redo_stack_eq (h : History) : (h.redo).2.stack = h.stack := by
  unfold History.redo; split <;> rfl

lemma redo_saved_eq (h : History) : (h.redo).2.saved_index = h.saved_index := by
  unfold History.redo; split <;> rfl

lemma push_bounds (h : History) (t : List Char) (a hd : Nat)
    (hlt : h.current_index < h.stack.length) :
    (h.push t a hd).current_index < (h.push t a hd).stack.length := by
  unfold History.push
  cases hget : h.stack[h.current_index]? with
  | none => exact absurd hget (by simp [List.getElem?_eq_getElem hlt])
  | some top =>
    by_cases heq : top.text = t
    · simpa [heq] using hlt
    · simp only [if_neg heq, History.pushNew, List.length_append,
        List.length_cons, List.length_nil]
      split
      · rw [List.length_take]; omega
      · omega

lemma push_stack_ne_nil (h : History) (t : List Char) (a hd : Nat)
    (hne : h.stack ≠ []) : (h.push t a hd).stack ≠ [] := by
  unfold History.push
  cases hget : h.stack[h.current_index]? with
  | none => simp [History.pushNew]
  | some top =>
    by_cases heq : top.text = t
    · simpa [heq] using hne
    · simp [if_neg heq, History.pushNew]

/-- Claim C2 (amended): for every reachable `History` state the stack is
non-empty and `current_index < len(stack)`; the analogous bound on
`saved_index` does not hold in general (see the counterexample). -/
theorem index_bounds_invariant {h : History} (hr : Reachable h) :
    h.stack ≠ [] ∧ h.current_index < h.stack.length := by
  induction hr with
  | new => exact ⟨by simp [History.new], by simp [History.new]⟩
  | push text anchor hd _ ih =>
    exact ⟨push_stack_ne_nil _ _ _ _ ih.1, push_bounds _ _ _ _ ih.2⟩
  | undo _ ih =>
    rename_i g _
    refine ⟨by rw [undo_stack_eq]; exact ih.1, ?_⟩
    rw [undo_stack_eq]
    unfold History.undo
    split
    · simp only
      omega
    · exact ih.2
  | redo _ ih =>
    rename_i g _
    refine ⟨by rw [redo_stack_eq]; exact ih.1, ?_⟩
    rw [redo_stack_eq]
    unfold History.redo
    split
    · simp only
      omega
    · exact ih.2
  | clear text _ _ => exact ⟨by simp [History.clear], by simp [History.clear]⟩
  | mark_saved _ ih => exact ih

/-- Witness for C2's amended invariant at a concrete reachable state. -/
theorem index_bounds_invariant_witness :
    Reachable (History.new.push ['a'] 0 0)
    ∧ (History.new.push ['a'] 0 0).stack ≠ []
    ∧ (History.new.push ['a'] 0 0).current_index
        < (History.new.push ['a'] 0 0).stack.length := by
  refine ⟨Reachable.push ['a'] 0 0 Reachable.new, ?_⟩
  have := index_bounds_invariant (Reachable.push ['a'] 0 0 Reachable.new)
  exact this

/-- Counterexample to claim C2 as stated: after
`push "a"; push "b"; mark_saved; undo; undo; push "c"` the stack was
truncated below the saved position, leaving `saved_index = 2` while the
stack holds only 2 snapshots, so `saved_index < len(stack)` fails in a
reachable state. -/
theorem index_bounds_cex :
    let H := (((((History.new.push ['a'] 0 0).push ['b'] 0 0).mark_saved).undo.2).undo.2).push
      ['c'] 0 0
    Reachable H ∧ H.saved_index = 2 ∧ H.stack.length = 2
      ∧ ¬ H.saved_index < H.stack.length := by
  refine ⟨?_, by decide, by decide, by decide⟩
  exact Reachable.push ['c'] 0 0 (Reachable.undo (Reachable.undo
    (Reachable.mark_saved (Reachable.push ['b'] 0 0
      (Reachable.push ['a'] 0 0 Reachable.new)))))

/-- Claim C1 (amended): `is_dirty` is definitionally
`current_index ≠ saved_index`; a fresh history is not dirty; after a push
that creates a new entry, `is_dirty` equals `current_index + 1 ≠ saved_index`
— in particular it is `true` whenever `saved_index ≤ current_index` held
before the push, but it can be `false` when a preceding
`mark_saved`/`undo` pair left `saved_index` one above `current_index` (see
the counterexample); after `mark_saved()`, `is_dirty` is `false`. -/
theorem dirty_derivation :
    History.new.is_dirty = false
    ∧ (∀ h : History, h.is_dirty = true ↔ h.current_index ≠ h.saved_index)
    ∧ (∀ (h : History) (t : List Char) (a hd : Nat) (top : Snapshot),
        h.stack[h.current_index]? = some top → top.text ≠ t →
        ((h.push t a hd).is_dirty = true ↔ h.current_index + 1 ≠ h.saved_index))
    ∧ (∀ (h : History) (t : List Char) (a hd : Nat) (top : Snapshot),
        h.stack[h.current_index]? = some top → top.text ≠ t →
        h.saved_index ≤ h.current_index → (h.push t a hd).is_dirty = true)
    ∧ (∀ h : History, h.mark_saved.is_dirty = false) := by
  have hpush : ∀ (h : History) (t : List Char) (a hd : Nat) (top : Snapshot),
      h.stack[h.current_index]? = some top → top.text ≠ t →
      ((h.push t a hd).is_dirty = true ↔ h.current_index + 1 ≠ h.saved_index) := by
    intro h t a hd top hget hne
    unfold History.push
    rw [hget]
    simp only [if_neg hne, History.pushNew, History.is_dirty, bne_iff_ne, ne_eq]
  refine ⟨rfl, ?_, hpush, ?_, ?_⟩
  · intro h
    simp [History.is_dirty, bne_iff_ne]
  · intro h t a hd top hget hne hle
    rw [hpush h t a hd top hget hne]
    omega
  · intro h
    simp [History.mark_saved, History.is_dirty]

/-- Witness for C1's amended claim: a first real push from a fresh history
makes it dirty. -/
theorem dirty_derivation_witness :
    (History.new.push ['a'] 0 0).is_dirty = true
    ∧ ((History.new.push ['b'] 2 3).is_dirty = true ↔ 0 + 1 ≠ 0) := by
  constructor
  · exact dirty_derivation.2.2.2.1 History.new ['a'] 0 0
      { text := [], cursor_anchor := 0, cursor_head := 0 } rfl (by decide) (by decide)
  · exact dirty_derivation.2.2.1 History.new ['b'] 2 3
      { text := [], cursor_anchor := 0, cursor_head := 0 } rfl (by decide)

/-- Counterexample to claim C1 as stated: after
`push "a"; mark_saved; undo`, pushing `"b"` creates a new entry (its text
differs from the current snapshot's text) yet `is_dirty()` returns `false`,
because truncation placed the new entry exactly at `saved_index`. -/
theorem dirty_derivation_cex :
    let pre := (((History.new.push ['a'] 1 1).mark_saved).undo).2
    (pre.stack[pre.current_index]?).map Snapshot.text = some []
    ∧ ([] : List Char) ≠ ['b']
    ∧ (pre.push ['b'] 1 1).is_dirty = false := by
  exact ⟨by decide, by decide, by decide⟩

lemma push_top_snapshot (h : History) (t : List Char) (a hd : Nat)
    (hlt : h.current_index < h.stack.length) :
    (h.push t a hd).stack[(h.push t a hd).current_index]? =
      some { text := t, cursor_anchor := a, cursor_head := hd } := by
  unfold History.push
  cases hget : h.stack[h.current_index]? with
  | none => exact absurd hget (by simp [List.getElem?_eq_getElem hlt])
  | some top =>
    by_cases heq : top.text = t
    · simp only [if_pos heq]
      rw [show ({ top with cursor_anchor := a, cursor_head := hd } : Snapshot)
          = { text := t, cursor_anchor := a, cursor_head := hd } by rw [← heq]]
      exact List.getElem?_set_eq_of_lt _ hlt
    · simp only [if_neg heq, History.pushNew]
      have hlen : (if h.current_index < h.stack.length - 1 then
          h.stack.take (h.current_index + 1) else h.stack).length
          = h.current_index + 1 := by
        split
        · rw [List.length_take]; omega
        · omega
      rw [List.getElem?_append_right (by omega), hlen]
      simp

/-- Claim C4: pushing the same text twice leaves the stack length unchanged
by the second call; and when `T` equals the current snapshot's text, a push
creates no entry and no truncation — it only overwrites the cursor fields of
the snapshot at `current_index`, leaving `current_index`, `saved_index` and
every other snapshot unchanged. -/
theorem push_no_growth (h : History) (T : List Char) (a1 h1 a2 h2 : Nat)
    (hlt : h.current_index < h.stack.length) :
    ((h.push T a1 h1).push T a2 h2).stack.length = (h.push T a1 h1).stack.length
    ∧ (∀ top : Snapshot, h.stack[h.current_index]? = some top → top.text = T →
        h.push T a2 h2 = { h with stack := h.stack.set h.current_index ⟨T, a2, h2⟩ }
        ∧ (h.push T a2 h2).stack.length = h.stack.length
        ∧ (h.push T a2 h2).current_index = h.current_index
        ∧ (h.push T a2 h2).saved_index = h.saved_index
        ∧ ∀ j : Nat, j ≠ h.current_index →
            (h.push T a2 h2).stack[j]? = h.stack[j]?) := by
  have hdedupe : ∀ (g : History) (a hd : Nat) (top : Snapshot),
      g.stack[g.current_index]? = some top → top.text = T →
      g.push T a hd = { g with stack := g.stack.set g.current_index ⟨T, a, hd⟩ } := by
    intro g a hd top hget heq
    unfold History.push
    simp only [hget, if_pos heq, heq, if_true]
  constructor
  · have htop := push_top_snapshot h T a1 h1 hlt
    rw [hdedupe (h.push T a1 h1) a2 h2 _ htop rfl]
    simp
  · intro top hget heq
    have hmain := hdedupe h a2 h2 top hget heq
    refine ⟨hmain, ?_, ?_, ?_, ?_⟩
    · rw [hmain]; simp
    · rw [hmain]
    · rw [hmain]
    · intro j hj
      rw [hmain]
      exact List.getElem?_set_ne (by omega)

/-- Witness for C4 at concrete inputs. -/
theorem push_no_growth_witness :
    ((History.new.push ['a'] 0 0).push ['a'] 5 5).stack.length
        = (History.new.push ['a'] 0 0).stack.length
    ∧ (History.new.push [] 7 8).current_index = History.new.current_index := by
  constructor
  · exact (push_no_growth History.new ['a'] 0 0 5 5 (by decide)).1
  · exact ((push_no_growth History.new [] 0 0 7 8 (by decide)).2
      { text := [], cursor_anchor := 0, cursor_head := 0 } rfl rfl).2.2.1

/-- Claim C5 (amended): for texts `A`, `B`, `C` whose pushes each create a
new entry (`A` differs from the initial empty text, `B` from `A`, and `C`
from `A`), the sequence `push A; push B; undo; push C` from a fresh history
discards the entry holding `B`, and `redo()` returns `none`. -/
theorem redo_invalidation (A B C : List Char) (a1 h1 a2 h2 a3 h3 : Nat)
    (hA : A ≠ []) (hB : B ≠ A) (hC : C ≠ A) :
    (((((History.new.push A a1 h1).push B a2 h2).undo.2).push C a3 h3).redo).1 = none := by
  have hA' : ¬ ([] : List Char) = A := fun hh => hA hh.symm
  have hB' : ¬ A = B := fun hh => hB hh.symm
  have hC' : ¬ A = C := fun hh => hC hh.symm
  have s1 : History.new.push A a1 h1 =
      { stack := [⟨[], 0, 0⟩, ⟨A, a1, h1⟩], current_index := 1, saved_index := 0 } := by
    simp [History.push, History.new, History.pushNew, hA']
  have s2 : (History.new.push A a1 h1).push B a2 h2 =
      { stack := [⟨[], 0, 0⟩, ⟨A, a1, h1⟩, ⟨B, a2, h2⟩],
        current_index := 2, saved_index := 0 } := by
    rw [s1]
    simp [History.push, History.pushNew, hB']
  have s3 : (((History.new.push A a1 h1).push B a2 h2).undo).2 =
      { stack := [⟨[], 0, 0⟩, ⟨A, a1, h1⟩, ⟨B, a2, h2⟩],
        current_index := 1, saved_index := 0 } := by
    rw [s2]
    simp [History.undo]
  have s4 : ((((History.new.push A a1 h1).push B a2 h2).undo).2).push C a3 h3 =
      { stack := [⟨[], 0, 0⟩, ⟨A, a1, h1⟩, ⟨C, a3, h3⟩],
        current_index := 2, saved_index := 0 } := by
    rw [s3]
    simp [History.push, History.pushNew, hC']
  rw [s4]
  simp [History.redo]

/-- Witness for C5's amended claim at concrete texts. -/
theorem redo_invalidation_witness :
    (((((History.new.push ['a'] 0 0).push ['b'] 0 0).undo.2).push
        ['c'] 0 0).redo).1 = none := by
  exact redo_invalidation ['a'] ['b'] ['c'] 0 0 0 0 0 0
    (by decide) (by decide) (by decide)

/-- Counterexample to claim C5 as stated: with `A = ""` the first push
deduplicates against the initial empty snapshot, so after
`push A; push B; undo; push C` with `C = ""` the redo branch survives and
`redo()` returns the snapshot holding `B`. -/
theorem redo_invalidation_cex :
    (((((History.new.push [] 0 0).push ['a'] 0 0).undo.2).push [] 0 0).redo).1
      = some ⟨['a'], 0, 0⟩ := by
  decide

/-- The loop of `TextEditor::offset_to_position`: iterate over
`text.char_indices()` — pairs of a byte index `i` and a scalar `c` — break
as soon as `i >= offset`, count a line per `'\n'` and otherwise one column
unit per scalar. -/
def offsetToPositionGo : List Char → Nat → Nat → Nat → Nat → Nat × Nat
  | [], _, _, line, chr => (line, chr)
  | c :: rest, i, offset, line, chr =>
    if offset ≤ i then (line, chr)
    else if c = '\n' then offsetToPositionGo rest (i + c.utf8Size) offset (line + 1) 0
    else offsetToPositionGo rest (i + c.utf8Size) offset line (chr + 1)

/-- `TextEditor::offset_to_position(text, offset)` from `editor/mod.rs`. -/
def offset_to_position (text : List Char) (offset : Nat) : Nat × Nat :=
  offsetToPositionGo text 0 offset 0 0

/-- The same loop with the offset kept relative to the current byte index
(`r = offset - i`); proof-internal reformulation. -/
def offsetToPositionRel : List Char → Nat → Nat → Nat → Nat × Nat
  | [], _, line, chr => (line, chr)
  | c :: rest, r, line, chr =>
    if r = 0 then (line, chr)
    else if c = '\n' then offsetToPositionRel rest (r - c.utf8Size) (line + 1) 0
    else offsetToPositionRel rest (r - c.utf8Size) line (chr + 1)

/-- The scalars of `text` whose starting byte index (in the UTF-8 encoding)
is strictly below `offset`. -/
def byteTake : List Char → Nat → List Char
  | [], _ => []
  | c :: rest, r => if r = 0 then [] else c :: byteTake rest (r - c.utf8Size)

/-- Number of scalar values after the last `'\n'` of `l` (all of `l` when it
has no `'\n'`). -/
def colOf (l : List Char) : Nat :=
  (l.reverse.takeWhile (fun c => c != '\n')).length

/-- Byte-offset reading of the position mapping: line counts the `'\n'`
scalars whose starting byte index is strictly below `offset`, column the
scalars after the last such `'\n'`. -/
def byteOffsetToPosition (text : List Char) (offset : Nat) : Nat × Nat :=
  ((byteTake text offset).count '\n', colOf (byteTake text offset))

/-- Scalar-offset reading of the position mapping, following the words of
the specification (claim C3): line counts the `'\n'` occurrences among the
first `offset` scalar values, column the scalars after the last of them. -/
def scalarOffsetToPosition (text : List Char) (offset : Nat) : Nat × Nat :=
  ((text.take offset).count '\n', colOf (text.take offset))

lemma go_eq_rel (text : List Char) :
    ∀ (i offset line chr : Nat),
      offsetToPositionGo text i offset line chr
        = offsetToPositionRel text (offset - i) line chr := by
  induction text with
  | nil => intros; rfl
  | cons c rest ih =>
    intro i offset line chr
    simp only [offsetToPositionGo, offsetToPositionRel]
    by_cases hle : offset ≤ i
    · rw [if_pos hle, if_pos (Nat.sub_eq_zero_of_le hle)]
    · have hne0 : ¬ (offset - i = 0) := by omega
      rw [if_neg hle, if_neg hne0]
      have harith : offset - i - c.utf8Size = offset - (i + c.utf8Size) := by omega
      by_cases hc : c = '\n'
      · rw [if_pos hc, if_pos hc, ih, harith]
      · rw [if_neg hc, if_neg hc, ih, harith]

lemma takeWhile_append_false {α : Type} {p : α → Bool} (l : List α) (a : α)
    (hpa : p a = false) : (l ++ [a]).takeWhile p = l.takeWhile p := by
  induction l with
  | nil => simp [List.takeWhile_cons, hpa]
  | cons b l ih =>
    simp only [List.cons_append, List.takeWhile_cons]
    cases hb : p b <;> simp [ih]

lemma takeWhile_append_all {α : Type} {p : α → Bool} (l l2 : List α)
    (h : l.all p = true) : (l ++ l2).takeWhile p = l ++ l2.takeWhile p := by
  induction l with
  | nil => simp
  | cons b l ih =>
    simp only [List.all_cons, Bool.and_eq_true] at h
    simp [List.takeWhile_cons, h.1, ih h.2]

lemma takeWhile_append_not_all {α : Type} {p : α → Bool} (l l2 : List α)
    (h : ¬ l.all p = true) : (l ++ l2).takeWhile p = l.takeWhile p := by
  induction l with
  | nil => simp at h
  | cons b l ih =>
    simp only [List.all_cons, Bool.and_eq_true] at h
    cases hb : p b
    · simp [List.takeWhile_cons, hb]
    · have : ¬ l.all p = true := fun hl => h ⟨hb, hl⟩
      simp [List.takeWhile_cons, hb, ih this]

lemma colOf_cons_nl (p : List Char) : colOf ('\n' :: p) = colOf p := by
  unfold colOf
  rw [List.reverse_cons, takeWhile_append_false _ _ (by decide)]

lemma colOf_cons_other (c : Char) (hc : ¬ c = '\n') (p : List Char) :
    colOf (c :: p) = if p.count '\n' = 0 then colOf p + 1 else colOf p := by
  unfold colOf
  rw [List.reverse_cons]
  by_cases hcount : p.count '\n' = 0
  · have hall : p.reverse.all (fun x => x != '\n') = true := by
      simp only [List.all_eq_true, List.mem_reverse, bne_iff_ne, ne_eq]
      intro x hx hxeq
      exact (List.count_eq_zero.mp hcount) (hxeq ▸ hx)
    rw [if_pos hcount, takeWhile_append_all _ _ hall]
    have hself : p.reverse.takeWhile (fun x => x != '\n') = p.reverse := by
      have := takeWhile_append_all (p := fun x => x != '\n') p.reverse [] hall
      simpa using this
    simp [hself, List.takeWhile_cons, bne_iff_ne, hc]
  · have hmem : '\n' ∈ p := by
      have := List.count_pos_iff.mp (Nat.pos_of_ne_zero hcount)
      exact this
    have hnall : ¬ p.reverse.all (fun x => x != '\n') = true := by
      simp only [List.all_eq_true, List.mem_reverse, bne_iff_ne, ne_eq]
      intro hall
      exact hall '\n' hmem rfl
    rw [if_neg hcount, takeWhile_append_not_all _ _ hnall]

lemma rel_spec (text : List Char) :
    ∀ (r line chr : Nat),
      offsetToPositionRel text r line chr =
        (line + (byteTake text r).count '\n',
         if (byteTake text r).count '\n' = 0 then chr + colOf (byteTake text r)
         else colOf (byteTake text r)) := by
  induction text with
  | nil =>
    intro r line chr
    simp [offsetToPositionRel, byteTake, colOf]
  | cons c rest ih =>
    intro r line chr
    by_cases hr : r = 0
    · subst hr
      simp [offsetToPositionRel, byteTake, colOf]
    · simp only [offsetToPositionRel, byteTake, if_neg hr]
      by_cases hc : c = '\n'
      · subst hc
        rw [if_pos rfl, ih, List.count_cons_self, colOf_cons_nl]
        simp only [Prod.mk.injEq]
        refine ⟨by omega, ?_⟩
        split
        · simp
        · rfl
      · rw [if_neg hc, ih,
          List.count_cons_of_ne (fun hh : ('\n' : Char) = c => hc hh.symm),
          colOf_cons_other c hc]
        simp only [Prod.mk.injEq, true_and]
        split
        · omega
        · rfl

lemma offset_to_position_eq_byte (text : List Char) (offset : Nat) :
    offset_to_position text offset = byteOffsetToPosition text offset := by
  unfold offset_to_position byteOffsetToPosition
  rw [go_eq_rel, Nat.sub_zero, rel_spec]
  simp only [Prod.mk.injEq, Nat.zero_add, true_and]
  split <;> simp

lemma byteTake_ascii (text : List Char) (hascii : ∀ c ∈ text, c.utf8Size = 1) :
    ∀ offset : Nat, byteTake text offset = text.take offset := by
  induction text with
  | nil => intro offset; simp [byteTake]
  | cons c rest ih =>
    intro offset
    by_cases hr : offset = 0
    · subst hr; simp [byteTake]
    · simp only [byteTake, if_neg hr]
      rw [hascii c (by simp)]
      obtain ⟨k, rfl⟩ : ∃ k, offset = k + 1 := ⟨offset - 1, by omega⟩
      rw [List.take_succ_cons]
      simp only [Nat.add_sub_cancel]
      rw [ih (fun d hd => hascii d (by simp [hd])) k]

/-- Claim C3 (amended): `offset_to_position` is a total function whose
`offset` argument is a byte (UTF-8 code-unit) offset, not a scalar offset:
the loop stops at the first scalar whose starting byte index reaches
`offset`; line counts the `'\n'` scalars starting strictly below `offset`
and column counts the scalars since the last such `'\n'`, so a multi-byte
character still counts as one column unit; offsets beyond the byte length
clamp to the end position; on pure-ASCII text this coincides with the
spec's scalar-offset description, and the four concrete examples hold. -/
theorem offset_to_position_spec :
    (∀ (text : List Char) (offset : Nat),
      offset_to_position text offset = byteOffsetToPosition text offset)
    ∧ (∀ (text : List Char) (offset : Nat), (∀ c ∈ text, c.utf8Size = 1) →
      offset_to_position text offset = scalarOffsetToPosition text offset)
    ∧ offset_to_position [] 0 = (0, 0)
    ∧ offset_to_position ['a', 'b', '\n', 'c', 'd'] 4 = (1, 1)
    ∧ offset_to_position ['a', 'b', '\n', 'c', 'd'] 2 = (0, 2)
    ∧ offset_to_position ['a', 'b', '\n', 'c', 'd'] 100 = (1, 2) := by
  refine ⟨offset_to_position_eq_byte, ?_, by decide, by decide, by decide, by decide⟩
  intro text offset hascii
  rw [offset_to_position_eq_byte]
  unfold byteOffsetToPosition scalarOffsetToPosition
  rw [byteTake_ascii text hascii]

/-- Witness for C3's amended claim at concrete inputs. -/
theorem offset_to_position_spec_witness :
    offset_to_position ['é', '\n', 'x'] 3 = byteOffsetToPosition ['é', '\n', 'x'] 3
    ∧ offset_to_position ['a', '\n', 'x'] 2 = scalarOffsetToPosition ['a', '\n', 'x'] 2 := by
  exact ⟨offset_to_position_spec.1 ['é', '\n', 'x'] 3,
    offset_to_position_spec.2.1 ['a', '\n', 'x'] 2 (by decide)⟩

/-- Counterexample to claim C3 as stated: on the text `"é\n"` with offset 2
— a scalar offset pointing past the `'\n'`, so the claim's scalar reading
demands `(1, 0)` — the function compares the offset against byte indices
and returns `(0, 1)`. -/
theorem offset_to_position_cex :
    offset_to_position ['é', '\n'] 2 = (0, 1)
    ∧ scalarOffsetToPosition ['é', '\n'] 2 = (1, 0)
    ∧ offset_to_position ['é', '\n'] 2 ≠ scalarOffsetToPosition ['é', '\n'] 2 := by
  exact ⟨by decide, by decide, by decide⟩

/-- Total UTF-8 byte length of a text. -/
def byteLen (t : List Char) : Nat := (t.map Char.utf8Size).sum

/-- Whether byte index `i` lies on a boundary between the UTF-8 encodings of
the scalar values of `t` (both ends included), i.e. never inside the
multi-byte encoding of one character. -/
def isCharBoundary : List Char → Nat → Bool
  | [], i => i == 0
  | c :: rest, i =>
    i == 0 || (decide (c.utf8Size ≤ i) && isCharBoundary rest (i - c.utf8Size))

lemma isCharBoundary_zero (t : List Char) : isCharBoundary t 0 = true := by
  cases t <;> simp [isCharBoundary]

lemma isCharBoundary_le (t : List Char) :
    ∀ i : Nat, isCharBoundary t i = true → i ≤ byteLen t := by
  induction t with
  | nil =>
    intro i h
    simp only [isCharBoundary, beq_iff_eq] at h
    simp [h, byteLen]
  | cons c rest ih =>
    intro i h
    simp only [isCharBoundary, Bool.or_eq_true, beq_iff_eq, Bool.and_eq_true,
      decide_eq_true_eq] at h
    rcases h with h0 | ⟨hle, hb⟩
    · simp [h0]
    · have hrest : i - c.utf8Size ≤ byteLen rest := ih _ hb
      simp only [byteLen, List.map_cons, List.sum_cons]
      simp only [byteLen] at hrest
      omega

/-- Both cursor offsets of a snapshot are valid indices into its text:
within `0 ≤ offset ≤ byte length` and on a scalar-value boundary. -/
def Snapshot.validOffsets (s : Snapshot) : Prop :=
  s.cursor_anchor ≤ byteLen s.text ∧ isCharBoundary s.text s.cursor_anchor = true
  ∧ s.cursor_head ≤ byteLen s.text ∧ isCharBoundary s.text s.cursor_head = true

/-- Reachability from `History::new()` when every `push` passes cursor
offsets lying on UTF-8 boundaries of its text, as the adapter's
notification handler does. -/
inductive ReachableV : History → Prop where
  | new : ReachableV History.new
  | push (text : List Char) (anchor hd : Nat) {h : History} :
      isCharBoundary text anchor = true → isCharBoundary text hd = true →
      ReachableV h → ReachableV (h.push text anchor hd)
  | undo {h : History} : ReachableV h → ReachableV (h.undo).2
  | redo {h : History} : ReachableV h → ReachableV (h.redo).2
  | clear (text : List Char) {h : History} : ReachableV h → ReachableV (h.clear text)
  | mark_saved {h : History} : ReachableV h → ReachableV h.mark_saved

lemma mem_push_stack {g : History} {t : List Char} {a hd : Nat} {s : Snapshot}
    (hs : s ∈ (g.push t a hd).stack) : s ∈ g.stack ∨ s = ⟨t, a, hd⟩ := by
  unfold History.push at hs
  cases hget : g.stack[g.current_index]? with
  | none =>
    rw [hget] at hs
    simp only [History.pushNew, List.mem_append, List.mem_singleton] at hs
    rcases hs with hs | hs
    · left
      rcases Decidable.em (g.current_index < g.stack.length - 1) with hdec | hdec
      · rw [if_pos hdec] at hs
        exact List.take_subset _ _ hs
      · rw [if_neg hdec] at hs
        exact hs
    · right; exact hs
  | some top =>
    rw [hget] at hs
    by_cases heq : top.text = t
    · simp only [if_pos heq] at hs
      rcases List.mem_or_eq_of_mem_set hs with hmem | hval
      · left; exact hmem
      · right; rw [hval, heq]
    · simp only [if_neg heq] at hs
      simp only [History.pushNew, List.mem_append, List.mem_singleton] at hs
      rcases hs with hs | hs
      · left
        rcases Decidable.em (g.current_index < g.stack.length - 1) with hdec | hdec
        · rw [if_pos hdec] at hs
          exact List.take_subset _ _ hs
        · rw [if_neg hdec] at hs
          exact hs
      · right; exact hs

/-- Claim C8 (amended): provided every `push` passes cursor offsets on UTF-8
boundaries of its text — which is all `History` itself can guarantee, since
`push` stores its arguments unvalidated — every snapshot in the stack keeps
both offsets within `0 ≤ offset ≤ length` and on a scalar-value boundary,
after any sequence of `push`, `undo`, `redo`, `clear` and `mark_saved`. -/
theorem snapshot_offsets_valid {h : History} (hr : ReachableV h) :
    ∀ s ∈ h.stack, s.validOffsets := by
  induction hr with
  | new =>
    intro s hs
    simp only [History.new, List.mem_singleton] at hs
    subst hs
    exact ⟨by simp [byteLen], isCharBoundary_zero _, by simp [byteLen],
      isCharBoundary_zero _⟩
  | push text anchor hd hba hbh _ ih =>
    intro s hs
    rcases mem_push_stack hs with hmem | hval
    · exact ih s hmem
    · subst hval
      exact ⟨isCharBoundary_le _ _ hba, hba, isCharBoundary_le _ _ hbh, hbh⟩
  | undo _ ih =>
    intro s hs
    rw [undo_stack_eq] at hs
    exact ih s hs
  | redo _ ih =>
    intro s hs
    rw [redo_stack_eq] at hs
    exact ih s hs
  | clear text _ _ =>
    intro s hs
    simp only [History.clear, List.mem_singleton] at hs
    subst hs
    exact ⟨by simp [byteLen], isCharBoundary_zero _, by simp [byteLen],
      isCharBoundary_zero _⟩
  | mark_saved _ ih =>
    intro s hs
    exact ih s hs

/-- Witness for C8's amended claim at a concrete validated push. -/
theorem snapshot_offsets_valid_witness :
    Snapshot.validOffsets ⟨['a'], 1, 1⟩ := by
  exact snapshot_offsets_valid
    (ReachableV.push ['a'] 1 1 (by decide) (by decide) ReachableV.new)
    ⟨['a'], 1, 1⟩ (by decide)

/-- Counterexample to claim C8 as stated: `push("a", 5, 5)` is a plain
`push` call, reachable in the claim's sense, yet it stores a snapshot whose
offsets exceed the text length and lie on no boundary — `History::push`
never validates its cursor arguments. -/
theorem snapshot_offsets_cex :
    Reachable (History.new.push ['a'] 5 5)
    ∧ (⟨['a'], 5, 5⟩ : Snapshot) ∈ (History.new.push ['a'] 5 5).stack
    ∧ ¬ (5 ≤ byteLen ['a'])
    ∧ isCharBoundary ['a'] 5 = false := by
  exact ⟨Reachable.push ['a'] 5 5 Reachable.new, by decide, by decide, by decide⟩

/-- The adapter state of `TextEditor` (`editor/mod.rs`) relevant to the
suppression protocol, together with the externally owned input buffer:
`bufferText` and `bufferCursor` model the `InputState`'s value and caret
offset, and `pendingClearIgnore` models the `cx.on_next_frame` callback
scheduled to reset `ignore_input_events`.  The external widget's
`Position`/offset conversion is modelled as the identity on offsets. -/
structure TextEditor where
  bufferText : List Char
  bufferCursor : Nat
  is_dirty : Bool
  ignore_input_events : Bool
  history : History
  pendingClearIgnore : Bool
deriving DecidableEq, Repr

/-- `TextEditor::update_dirty_state`: recompute `is_dirty` from the history
(the source writes the field only when it changed, which yields the same
state). -/
def TextEditor.update_dirty_state (e : TextEditor) : TextEditor :=
  { e with is_dirty := e.history.is_dirty }

/-- The input-event subscription handler installed by `TextEditor::new`:
when `ignore_input_events` is set it only re-renders; otherwise it reads
the buffer's full value and caret and pushes them, then recomputes the
dirty flag. -/
def TextEditor.onInputEvent (e : TextEditor) : TextEditor :=
  if e.ignore_input_events then e
  else
    TextEditor.update_dirty_state
      { e with history := e.history.push e.bufferText e.bufferCursor e.bufferCursor }

/-- `TextEditor::undo`: if the history yields a snapshot, set the
suppression flag, write the snapshot's text and caret into the buffer,
schedule the flag clear for the next frame and recompute the dirty flag. -/
def TextEditor.undoAction (e : TextEditor) : TextEditor :=
  match e.history.undo with
  | (some snap, h2) =>
    TextEditor.update_dirty_state
      { e with
        history := h2
        ignore_input_events := true
        bufferText := snap.text
        bufferCursor := snap.cursor_head
        pendingClearIgnore := true }
  | (none, h2) => { e with history := h2 }

/-- `TextEditor::redo`, symmetric to `TextEditor::undo`. -/
def TextEditor.redoAction (e : TextEditor) : TextEditor :=
  match e.history.redo with
  | (some snap, h2) =>
    TextEditor.update_dirty_state
      { e with
        history := h2
        ignore_input_events := true
        bufferText := snap.text
        bufferCursor := snap.cursor_head
        pendingClearIgnore := true }
  | (none, h2) => { e with history := h2 }

/-- The deferred `cx.on_next_frame` callback: on the next frame, clear the
suppression flag. -/
def TextEditor.frameTick (e : TextEditor) : TextEditor :=
  if e.pendingClearIgnore then
    { e with ignore_input_events := false, pendingClearIgnore := false }
  else e

lemma onInputEvent_ignored (e : TextEditor) (hig : e.ignore_input_events = true) :
    e.onInputEvent = e := by
  unfold TextEditor.onInputEvent
  rw [if_pos hig]

lemma iterate_onInputEvent_ignored (n : Nat) :
    ∀ e : TextEditor, e.ignore_input_events = true →
      TextEditor.onInputEvent^[n] e = e := by
  induction n with
  | zero => intro e _; rfl
  | succ n ih =>
    intro e hig
    rw [Function.iterate_succ_apply, onInputEvent_ignored e hig, ih e hig]

lemma undoAction_eq (e : TextEditor) (snap : Snapshot)
    (hu : (e.history.undo).1 = some snap) :
    e.undoAction = TextEditor.update_dirty_state
      { e with
        history := (e.history.undo).2
        ignore_input_events := true
        bufferText := snap.text
        bufferCursor := snap.cursor_head
        pendingClearIgnore := true } := by
  unfold TextEditor.undoAction
  rw [show e.history.undo = (some snap, (e.history.undo).2) from by
    rw [← hu]]

lemma redoAction_eq (e : TextEditor) (snap : Snapshot)
    (hu : (e.history.redo).1 = some snap) :
    e.redoAction = TextEditor.update_dirty_state
      { e with
        history := (e.history.redo).2
        ignore_input_events := true
        bufferText := snap.text
        bufferCursor := snap.cursor_head
        pendingClearIgnore := true } := by
  unfold TextEditor.redoAction
  rw [show e.history.redo = (some snap, (e.history.redo).2) from by
    rw [← hu]]

/-- Claim C6: a handler invocation with the suppression flag set performs no
push and no dirty-state update (the state is unchanged); a successful
`undo()`/`redo()` sets the flag before the programmatic buffer write and
schedules its clear for the next frame, so however many buffer
notifications are delivered before that frame, the history — its stack
length and `current_index` included — stays exactly what the undo/redo
itself set, and the frame tick that clears the flag changes no history
state either. -/
theorem suppression_correctness :
    (∀ e : TextEditor, e.ignore_input_events = true → e.onInputEvent = e)
    ∧ (∀ (e : TextEditor) (n : Nat), ((e.history.undo).1).isSome = true →
        (e.undoAction).ignore_input_events = true
        ∧ (TextEditor.onInputEvent^[n] e.undoAction).history = (e.history.undo).2
        ∧ (TextEditor.onInputEvent^[n] e.undoAction).history.stack.length
            = (e.history.undo).2.stack.length
        ∧ (TextEditor.onInputEvent^[n] e.undoAction).history.current_index
            = (e.history.undo).2.current_index
        ∧ ((TextEditor.onInputEvent^[n] e.undoAction).frameTick).history
            = (e.history.undo).2
        ∧ ((TextEditor.onInputEvent^[n] e.undoAction).frameTick).ignore_input_events
            = false)
    ∧ (∀ (e : TextEditor) (n : Nat), ((e.history.redo).1).isSome = true →
        (e.redoAction).ignore_input_events = true
        ∧ (TextEditor.onInputEvent^[n] e.redoAction).history = (e.history.redo).2
        ∧ ((TextEditor.onInputEvent^[n] e.redoAction).frameTick).history
            = (e.history.redo).2) := by
  refine ⟨onInputEvent_ignored, ?_, ?_⟩
  · intro e n hsome
    obtain ⟨snap, hsnap⟩ := Option.isSome_iff_exists.mp hsome
    rw [undoAction_eq e snap hsnap]
    rw [iterate_onInputEvent_ignored n _ rfl]
    exact ⟨rfl, rfl, rfl, rfl, rfl, rfl⟩
  · intro e n hsome
    obtain ⟨snap, hsnap⟩ := Option.isSome_iff_exists.mp hsome
    rw [redoAction_eq e snap hsnap]
    rw [iterate_onInputEvent_ignored n _ rfl]
    exact ⟨rfl, rfl, rfl⟩

/-- Witness for C6 at a concrete editor state with two pending
notifications. -/
theorem suppression_correctness_witness :
    (({ bufferText := ['b'], bufferCursor := 0, is_dirty := false,
        ignore_input_events := true, history := History.new,
        pendingClearIgnore := false } : TextEditor).onInputEvent
      = { bufferText := ['b'], bufferCursor := 0, is_dirty := false,
          ignore_input_events := true, history := History.new,
          pendingClearIgnore := false })
    ∧ (((History.new.push ['a'] 1 1).undo).1).isSome = true
    ∧ (TextEditor.onInputEvent^[2]
        (TextEditor.undoAction
          { bufferText := ['a'], bufferCursor := 1, is_dirty := true,
            ignore_input_events := false, history := History.new.push ['a'] 1 1,
            pendingClearIgnore := false })).history
        = (((History.new.push ['a'] 1 1).undo)).2 := by
  refine ⟨suppression_correctness.1 _ rfl, by decide, ?_⟩
  exact (suppression_correctness.2.1
    { bufferText := ['a'], bufferCursor := 1, is_dirty := true,
      ignore_input_events := false, history := History.new.push ['a'] 1 1,
      pendingClearIgnore := false } 2 (by decide)).2.1

/-- The currently displayed snapshot, `stack[current_index]`. -/
def currentSnap (h : History) : Option Snapshot :=
  h.stack[h.current_index]?

/-- The snapshot a `push(text, anchor, head)` call stores. -/
def mkSnap (p : List Char × Nat × Nat) : Snapshot :=
  { text := p.1, cursor_anchor := p.2.1, cursor_head := p.2.2 }

/-- Fold a sequence of `push` calls over a history. -/
def pushAll (h : History) (l : List (List Char × Nat × Nat)) : History :=
  l.foldl (fun g p => g.push p.1 p.2.1 p.2.2) h

/-- Call `undo()` `k` times, collecting the returned snapshots in order. -/
def undoN : Nat → History → List (Option Snapshot) × History
  | 0, h => ([], h)
  | k + 1, h =>
    let r := h.undo
    let r2 := undoN k r.2
    (r.1 :: r2.1, r2.2)

/-- Call `redo()` `k` times, collecting the returned snapshots in order. -/
def redoN : Nat → History → List (Option Snapshot) × History
  | 0, h => ([], h)
  | k + 1, h =>
    let r := h.redo
    let r2 := redoN k r.2
    (r.1 :: r2.1, r2.2)

lemma pushAll_at_top (l : List (List Char × Nat × Nat)) :
    ∀ (g : History) (topt : List Char),
      g.current_index + 1 = g.stack.length →
      (g.stack[g.current_index]?).map Snapshot.text = some topt →
      List.Chain' (· ≠ ·) (topt :: l.map (fun p => p.1)) →
      pushAll g l = { g with
        stack := g.stack ++ l.map mkSnap
        current_index := g.current_index + l.length } := by
  induction l with
  | nil =>
    intro g topt _ _ _
    simp [pushAll]
  | cons p rest ih =>
    intro g topt htop hget hchain
    obtain ⟨top, hgetTop, htext⟩ :
        ∃ top, g.stack[g.current_index]? = some top ∧ top.text = topt := by
      cases hg : g.stack[g.current_index]? with
      | none => rw [hg] at hget; simp at hget
      | some s => rw [hg] at hget; exact ⟨s, rfl, by simpa using hget⟩
    have hne : topt ≠ p.1 := (List.chain'_cons.mp (by simpa using hchain)).1
    have hpush : g.push p.1 p.2.1 p.2.2 = { g with
        stack := g.stack ++ [mkSnap p]
        current_index := g.current_index + 1 } := by
      have hne2 : ¬ top.text = p.1 := by rw [htext]; exact hne
      unfold History.push
      simp only [hgetTop]
      rw [if_neg hne2]
      unfold History.pushNew
      rw [if_neg (by omega)]
      rfl
    have hstep : pushAll g (p :: rest) = pushAll (g.push p.1 p.2.1 p.2.2) rest := rfl
    rw [hstep, hpush]
    rw [ih _ p.1 (by simp; omega) ?_ ?_]
    · simp [List.append_assoc]
      omega
    · rw [show (g.stack ++ [mkSnap p])[g.current_index + 1]? = some (mkSnap p) by
        rw [List.getElem?_append_right (by omega)]
        simp [show g.current_index + 1 - g.stack.length = 0 by omega]]
      rfl
    · exact (List.chain'_cons.mp (by simpa using hchain)).2

lemma undoN_spec : ∀ (k : Nat) (h : History), k ≤ h.current_index →
    undoN k h =
      ((List.range k).map (fun j => h.stack[h.current_index - 1 - j]?),
       { h with current_index := h.current_index - k }) := by
  intro k
  induction k with
  | zero =>
    intro h _
    simp [undoN]
  | succ k ih =>
    intro h hk
    have hpos : 0 < h.current_index := by omega
    have hu : h.undo =
        (h.stack[h.current_index - 1]?,
         { h with current_index := h.current_index - 1 }) := by
      unfold History.undo
      rw [if_pos hpos]
    simp only [undoN, hu]
    rw [ih _ (by simp only; omega)]
    simp only [Prod.mk.injEq]
    refine ⟨?_, ?_⟩
    · rw [List.range_succ_eq_map, List.map_cons, List.map_map]
      refine congrArg₂ _ (by rw [Nat.sub_zero]) ?_
      refine List.map_congr_left ?_
      intro j _
      simp only [Function.comp_apply]
      congr 1
      omega
    · simp only [History.mk.injEq, true_and]
      constructor
      · omega
      · trivial

lemma redoN_spec : ∀ (k : Nat) (h : History), h.current_index + k < h.stack.length →
    redoN k h =
      ((List.range k).map (fun j => h.stack[h.current_index + 1 + j]?),
       { h with current_index := h.current_index + k }) := by
  intro k
  induction k with
  | zero =>
    intro h _
    simp [redoN]
  | succ k ih =>
    intro h hk
    have hlt : h.current_index < h.stack.length - 1 := by omega
    have hu : h.redo =
        (h.stack[h.current_index + 1]?,
         { h with current_index := h.current_index + 1 }) := by
      unfold History.redo
      rw [if_pos hlt]
    simp only [redoN, hu]
    rw [ih _ (by simp only; omega)]
    simp only [Prod.mk.injEq]
    refine ⟨?_, ?_⟩
    · rw [List.range_succ_eq_map, List.map_cons, List.map_map]
      refine congrArg₂ _ (by rw [Nat.add_zero]) ?_
      refine List.map_congr_left ?_
      intro j _
      simp only [Function.comp_apply]
      congr 1
      omega
    · simp only [History.mk.injEq, true_and]
      constructor
      · omega
      · trivial

lemma range_map_rev_take {α : Type} (ts : List α) (k : Nat) (hk : k ≤ ts.length) :
    (List.range k).map (fun j => ts[k - 1 - j]?) = ((ts.take k).reverse).map some := by
  apply List.ext_getElem?
  intro i
  rw [List.getElem?_map, List.getElem?_map]
  by_cases hik : i < k
  · rw [List.getElem?_range hik]
    have h1 : (ts.take k).reverse[i]? = (ts.take k)[(ts.take k).length - 1 - i]? :=
      List.getElem?_reverse (by rw [List.length_take]; omega)
    have h2 : (ts.take k).length - 1 - i = k - 1 - i := by
      rw [List.length_take]; omega
    rw [h1, h2, List.getElem?_take, if_pos (by omega)]
    simp [List.getElem?_eq_getElem (show k - 1 - i < ts.length by omega)]
  · rw [List.getElem?_eq_none (by rw [List.length_range]; omega),
      List.getElem?_eq_none (by rw [List.length_reverse, List.length_take]; omega)]
    rfl

lemma range_map_drop {α : Type} (ts : List α) (k d : Nat) (hkd : d + k = ts.length) :
    (List.range k).map (fun j => ts[d + j]?) = (ts.drop d).map some := by
  apply List.ext_getElem?
  intro i
  rw [List.getElem?_map, List.getElem?_map, List.getElem?_drop]
  by_cases hik : i < k
  · rw [List.getElem?_range hik]
    simp [List.getElem?_eq_getElem (show d + i < ts.length by omega)]
  · rw [List.getElem?_eq_none (by rw [List.length_range]; omega),
      List.getElem?_eq_none (by omega)]
    rfl

lemma snapText_getElem (L : List (List Char × Nat × Nat)) (i : Nat) :
    ((L.map mkSnap)[i]?).map Snapshot.text = (L.map (fun p => p.1))[i]? := by
  rw [List.getElem?_map, List.getElem?_map, Option.map_map]
  rfl

/-- Claim C7: for every non-empty sequence of pushes `T1..Tn` whose texts
are (pairwise, in particular consecutively) distinct, starting from a fresh
history: the `n−1` `undo()` calls return exactly the snapshots holding
`T(n−1), …, T1` in that order, the following `n−1` `redo()` calls return
exactly the snapshots holding `T2, …, Tn` in that order, and the final
current snapshot holds `Tn`. -/
theorem undo_redo_round_trip (l : List (List Char × Nat × Nat)) (hne : l ≠ [])
    (hchain : List.Chain' (· ≠ ·) (l.map (fun p => p.1))) :
    (currentSnap (redoN (l.length - 1)
          (undoN (l.length - 1) (pushAll History.new l)).2).2).map
        Snapshot.text = (l.map (fun p => p.1)).getLast?
    ∧ ((undoN (l.length - 1) (pushAll History.new l)).1).map (Option.map Snapshot.text)
        = (((l.map (fun p => p.1)).take (l.length - 1)).reverse).map some
    ∧ ((redoN (l.length - 1) (undoN (l.length - 1) (pushAll History.new l)).2).1).map
        (Option.map Snapshot.text) = ((l.map (fun p => p.1)).drop 1).map some := by
  cases l with
  | nil => exact absurd rfl hne
  | cons p0 rest =>
  have hlenmap : ((p0 :: rest).map (fun p => p.1)).length = rest.length + 1 := by
    simp
  have hlensnap : ((p0 :: rest).map mkSnap).length = rest.length + 1 := by
    simp
  by_cases hp0 : p0.1 = []
  -- Case: the first pushed text is the initial empty text, so the first
  -- push deduplicates into the initial snapshot.
  · have hfirst : History.new.push p0.1 p0.2.1 p0.2.2 =
        { stack := [mkSnap p0], current_index := 0, saved_index := 0 } := by
      unfold History.push
      simp [History.new, hp0, mkSnap, List.set]
    have hchain3 : List.Chain' (· ≠ ·) ([] :: rest.map (fun p => p.1)) := by
      rw [List.map_cons, hp0] at hchain
      exact hchain
    have hstate : pushAll History.new (p0 :: rest) =
        { stack := (p0 :: rest).map mkSnap
          current_index := rest.length
          saved_index := 0 } := by
      show pushAll (History.new.push p0.1 p0.2.1 p0.2.2) rest = _
      rw [hfirst]
      rw [pushAll_at_top rest
        { stack := [mkSnap p0], current_index := 0, saved_index := 0 }
        [] rfl ?_ hchain3]
      · simp [List.map_cons]
      · simp [mkSnap, hp0]
    rw [hstate]
    have hu := undoN_spec ((p0 :: rest).length - 1)
      { stack := (p0 :: rest).map mkSnap
        current_index := rest.length
        saved_index := 0 }
      (by show (p0 :: rest).length - 1 ≤ rest.length
          simp only [List.length_cons]
          omega)
    rw [hu]
    have hr := redoN_spec ((p0 :: rest).length - 1)
      { stack := (p0 :: rest).map mkSnap
        current_index := rest.length - ((p0 :: rest).length - 1)
        saved_index := 0 }
      (by
        show rest.length - ((p0 :: rest).length - 1) + ((p0 :: rest).length - 1)
          < ((p0 :: rest).map mkSnap).length
        simp only [List.length_cons, List.length_map]
        omega)
    rw [hr]
    refine ⟨?_, ?_, ?_⟩
    · show (((p0 :: rest).map mkSnap)[rest.length - ((p0 :: rest).length - 1)
          + ((p0 :: rest).length - 1)]?).map Snapshot.text = _
      rw [show rest.length - ((p0 :: rest).length - 1) + ((p0 :: rest).length - 1)
          = rest.length by simp only [List.length_cons]; omega]
      rw [snapText_getElem, List.getLast?_eq_getElem?, hlenmap]
      rfl
    · show (List.map (Option.map Snapshot.text) ((List.range ((p0 :: rest).length - 1)).map
          (fun j => ((p0 :: rest).map mkSnap)[rest.length - 1 - j]?))) = _
      rw [List.map_map,
        ← range_map_rev_take ((p0 :: rest).map (fun p => p.1)) ((p0 :: rest).length - 1)
          (by rw [hlenmap]; simp only [List.length_cons]; omega)]
      refine List.map_congr_left ?_
      intro j hj
      rw [List.mem_range] at hj
      simp only [Function.comp_apply]
      rw [snapText_getElem]
      congr 1
    · show (List.map (Option.map Snapshot.text) ((List.range ((p0 :: rest).length - 1)).map
          (fun j => ((p0 :: rest).map mkSnap)[rest.length - ((p0 :: rest).length - 1)
            + 1 + j]?))) = _
      rw [List.map_map,
        ← range_map_drop ((p0 :: rest).map (fun p => p.1)) ((p0 :: rest).length - 1) 1
          (by rw [hlenmap]; simp only [List.length_cons]; omega)]
      refine List.map_congr_left ?_
      intro j hj
      simp only [Function.comp_apply]
      rw [snapText_getElem]
      congr 1
      simp only [List.length_cons]
      omega
  -- Case: the first pushed text differs from the initial empty text, so
  -- every push appends an entry after the initial snapshot.
  · have hchain2 : List.Chain' (· ≠ ·) ([] :: (p0 :: rest).map (fun p => p.1)) := by
      rw [List.map_cons]
      exact List.chain'_cons.mpr ⟨fun hh => hp0 hh.symm, by
        rw [← List.map_cons]; exact hchain⟩
    have hstate : pushAll History.new (p0 :: rest) =
        { stack := ⟨[], 0, 0⟩ :: (p0 :: rest).map mkSnap
          current_index := (p0 :: rest).length
          saved_index := 0 } := by
      rw [pushAll_at_top (p0 :: rest) History.new [] rfl rfl hchain2]
      simp [History.new]
    rw [hstate]
    have hu := undoN_spec ((p0 :: rest).length - 1)
      { stack := ⟨[], 0, 0⟩ :: (p0 :: rest).map mkSnap
        current_index := (p0 :: rest).length
        saved_index := 0 }
      (by show (p0 :: rest).length - 1 ≤ (p0 :: rest).length; omega)
    rw [hu]
    have hr := redoN_spec ((p0 :: rest).length - 1)
      { stack := ⟨[], 0, 0⟩ :: (p0 :: rest).map mkSnap
        current_index := (p0 :: rest).length - ((p0 :: rest).length - 1)
        saved_index := 0 }
      (by
        show (p0 :: rest).length - ((p0 :: rest).length - 1) + ((p0 :: rest).length - 1)
          < (⟨[], 0, 0⟩ :: (p0 :: rest).map mkSnap : List Snapshot).length
        simp only [List.length_cons, List.length_map]
        omega)
    rw [hr]
    refine ⟨?_, ?_, ?_⟩
    · show (((⟨[], 0, 0⟩ :: (p0 :: rest).map mkSnap : List Snapshot))[
          (p0 :: rest).length - ((p0 :: rest).length - 1)
          + ((p0 :: rest).length - 1)]?).map Snapshot.text = _
      rw [show (p0 :: rest).length - ((p0 :: rest).length - 1) + ((p0 :: rest).length - 1)
          = rest.length + 1 by simp only [List.length_cons]; omega]
      rw [List.getElem?_cons_succ, snapText_getElem, List.getLast?_eq_getElem?, hlenmap]
      rfl
    · show (List.map (Option.map Snapshot.text) ((List.range ((p0 :: rest).length - 1)).map
          (fun j => (⟨[], 0, 0⟩ :: (p0 :: rest).map mkSnap : List Snapshot)[
            (p0 :: rest).length - 1 - j]?))) = _
      rw [List.map_map,
        ← range_map_rev_take ((p0 :: rest).map (fun p => p.1)) ((p0 :: rest).length - 1)
          (by rw [hlenmap]; simp only [List.length_cons]; omega)]
      refine List.map_congr_left ?_
      intro j hj
      rw [List.mem_range] at hj
      simp only [Function.comp_apply]
      simp only [List.length_cons] at hj
      rw [show (p0 :: rest).length - 1 - j = (rest.length - 1 - j) + 1 by
        simp only [List.length_cons]; omega]
      rw [List.getElem?_cons_succ, snapText_getElem]
      congr 1
    · show (List.map (Option.map Snapshot.text) ((List.range ((p0 :: rest).length - 1)).map
          (fun j => (⟨[], 0, 0⟩ :: (p0 :: rest).map mkSnap : List Snapshot)[
            (p0 :: rest).length - ((p0 :: rest).length - 1) + 1 + j]?))) = _
      rw [List.map_map,
        ← range_map_drop ((p0 :: rest).map (fun p => p.1)) ((p0 :: rest).length - 1) 1
          (by rw [hlenmap]; simp only [List.length_cons]; omega)]
      refine List.map_congr_left ?_
      intro j hj
      simp only [Function.comp_apply]
      rw [show (p0 :: rest).length - ((p0 :: rest).length - 1) + 1 + j = (1 + j) + 1 by
        simp only [List.length_cons]; omega]
      rw [List.getElem?_cons_succ, snapText_getElem]

/-- Witness for C7 at a concrete sequence of three distinct pushes. -/
theorem undo_redo_round_trip_witness :
    [(['a'], 0, 0), (['b'], 1, 1), (['c'], 2, 2)] ≠ ([] : List (List Char × Nat × Nat))
    ∧ ((undoN 2 (pushAll History.new
        [(['a'], 0, 0), (['b'], 1, 1), (['c'], 2, 2)])).1).map (Option.map Snapshot.text)
      = [some ['b'], some ['a']] := by
  constructor
  · decide
  · have := (undo_redo_round_trip [(['a'], 0, 0), (['b'], 1, 1), (['c'], 2, 2)]
      (by decide)
      (by
        refine List.Chain'.cons (by decide) ?_
        exact List.Chain'.cons (by decide) (List.chain'_singleton _))).2.1
    simpa using this

/-- Claim C9: `undo()` with `current_index > 0` decrements the index and
returns the snapshot now at `current_index`, else returns `none` leaving the
state unchanged; `redo()` behaves symmetrically at the top; neither call
mutates the stack contents or `saved_index`. -/
theorem undo_redo_frame (h : History) :
    h.undo =
      (if 0 < h.current_index then
        (h.stack[h.current_index - 1]?,
         { h with current_index := h.current_index - 1 })
      else (none, h))
    ∧ h.redo =
      (if h.current_index < h.stack.length - 1 then
        (h.stack[h.current_index + 1]?,
         { h with current_index := h.current_index + 1 })
      else (none, h))
    ∧ (h.undo).2.stack = h.stack
    ∧ (h.undo).2.saved_index = h.saved_index
    ∧ (h.redo).2.stack = h.stack
    ∧ (h.redo).2.saved_index = h.saved_index := by
  unfold History.undo History.redo
  refine ⟨rfl, rfl, ?_, ?_, ?_, ?_⟩ <;> split <;> rfl

/-- Claim C10: `clear(X)` leaves exactly one snapshot, whose cursor anchor
and head are both 0 whatever `X` is, and the snapshot created by `new()`
likewise has both cursor offsets 0. -/
theorem clear_resets_caret (h : History) (X : List Char) :
    (h.clear X).stack = [{ text := X, cursor_anchor := 0, cursor_head := 0 }]
    ∧ (h.clear X).current_index = 0
    ∧ (h.clear X).saved_index = 0
    ∧ History.new.stack = [{ text := [], cursor_anchor := 0, cursor_head := 0 }] := by
  exact ⟨rfl, rfl, rfl, rfl⟩

end OneText
